import Mathlib

set_option linter.unusedSectionVars false

/-!
Verification of the node2vec walk engine (`node2vec/node2vec.py`).

The development shallowly embeds the program:
* the graph supplied by the external graph provider is a structure giving the
  node iteration order, each node's neighbor iteration order, and the resolved
  edge weight (`graph[u][v].get(weight_key, 1)` is folded into the weight
  function, since attribute lookup is external data);
* floating point arithmetic is embedded in the exact rationals; numpy's
  elementwise division `v / v.sum()` becomes `normalize`; in the rationals
  division by zero yields zero, standing in for the undefined (NaN) float
  result at the single place a zero sum can occur;
* `Node2Vec._precompute_probabilities` becomes a fold (`precompute`) over the
  node list refining the Python loop nest; the mutable `d_graph` defaultdict
  becomes an explicit state `PState`.  The state carries one ghost field,
  `ftWrites`, counting how many times the first-travel store (source lines
  163-168) has executed per node; it influences nothing else;
* the walk sampler `parallel_generate_walks` lives in `node2vec/parallel.py`,
  which is not part of the sources here; it is modelled from the spec where
  needed (see `sampleWalk`, `workerBatch`), with randomness abstracted as a
  caller-supplied choice function;
* `fit`'s keyword-argument merging and `__init__`'s temp-folder validation are
  embedded directly (`fitParams`, `node2vecInit`), with `os.path.isdir`
  abstracted as a boolean oracle.
-/

namespace N2V

/-- The graph as seen through the provider interface: the node iteration
order, each node's neighbor iteration order (networkx adjacency order), and
the resolved edge weight (default 1 handled by the provider). -/
structure Graph (V : Type) where
  nodes : List V
  nbrs : V → List V
  w : V → V → ℚ

/-- A per-node sampling strategy record: the optional `p`, `q`, `num_walks`
and `walk_length` overrides (the dictionary values of `sampling_strategy`). -/
structure Overrides where
  p : Option ℚ := none
  q : Option ℚ := none
  num_walks : Option ℕ := none
  walk_length : Option ℕ := none

/-- Effective return parameter for a node: the per-node override if present,
else the global `p` (source lines 121-125). -/
def effP {V : Type} (ss : V → Option Overrides) (gp : ℚ) (n : V) : ℚ :=
  match ss n with
  | some o => o.p.getD gp
  | none => gp

/-- Effective in-out parameter for a node: the per-node override if present,
else the global `q` (source lines 126-130). -/
def effQ {V : Type} (ss : V → Option Overrides) (gq : ℚ) (n : V) : ℚ :=
  match ss n with
  | some o => o.q.getD gq
  | none => gq

/-- Effective walk length for a start node: the per-node override if present,
else the global `walk_length`. -/
def effWalkLength {V : Type} (ss : V → Option Overrides) (gwl : ℕ) (n : V) : ℕ :=
  match ss n with
  | some o => o.walk_length.getD gwl
  | none => gwl

/-- The per-node entry of `d_graph`: the optional `probabilities` sub-dict
(keyed by the previous node), the optional first-travel vector, and the
optional neighbor list. -/
structure NodeDict (V : Type) where
  probabilities : Option (List (V × List ℚ)) := none
  first_travel : Option (List ℚ) := none
  neighbors : Option (List V) := none

/-- State of `_precompute_probabilities`: the `d_graph` table, the
`first_travel_done` set, and the ghost counter of first-travel stores. -/
structure PState (V : Type) where
  dg : V → Option (NodeDict V)
  done : List V
  ftWrites : V → ℕ

variable {V : Type} [DecidableEq V]

/-- Association-list lookup with Python-dict key semantics. -/
def alookup {K β : Type} [DecidableEq K] (k : K) : List (K × β) → Option β
  | [] => none
  | (k', v) :: rest => if k' = k then some v else alookup k rest

/-- Association-list insert with Python-dict semantics: overwrite in place if
the key exists, else append. -/
def dictInsert {K β : Type} [DecidableEq K] (k : K) (v : β) : List (K × β) → List (K × β)
  | [] => [(k, v)]
  | (k', v') :: rest =>
      if k' = k then (k, v) :: rest else (k', v') :: dictInsert k v rest

/-- Read a node's `d_graph` entry, materializing the defaultdict default. -/
def getNode (st : PState V) (n : V) : NodeDict V :=
  (st.dg n).getD {}

/-- Lines 104-106 / 110-112: accessing `d_graph[n]` materializes the entry and
ensures the `probabilities` sub-dict exists (possibly empty). -/
def initProbs (st : PState V) (n : V) : PState V :=
  let d := getNode st n
  { st with
    dg := fun m =>
      if m = n then some { d with probabilities := some (d.probabilities.getD []) }
      else st.dg m }

/-- The node2vec bias rule for the step source→current→destination
(source lines 132-145): weight divided by `p` when stepping back, raw weight
when destination is also a neighbor of source, weight divided by `q`
otherwise. -/
def biasWeight (g : Graph V) (p q : ℚ) (source current destination : V) : ℚ :=
  if destination = source then g.w current destination / p
  else if destination ∈ g.nbrs source then g.w current destination
  else g.w current destination / q

/-- Elementwise division by the sum, as `v / v.sum()` on line 161/166. -/
def normalize (l : List ℚ) : List ℚ :=
  l.map (fun x => x / l.sum)

/-- The unnormalized transition weight vector for the step source→current,
over current's neighbors, with the effective `p`, `q` of current. -/
def transWeights (g : Graph V) (gp gq : ℚ) (ss : V → Option Overrides)
    (source current : V) : List ℚ :=
  (g.nbrs current).map (biasWeight g (effP ss gp current) (effQ ss gq current) source current)

/-- The raw (unbiased) first-travel weight vector over a node's neighbors. -/
def rawWeights (g : Graph V) (current : V) : List ℚ :=
  (g.nbrs current).map (fun d => g.w current d)

/-- One iteration of the inner loop of `_precompute_probabilities`
(source lines 108-171) for the pair (source, current): store the normalized
transition vector under `d_graph[current][probabilities][source]`, store the
first-travel vector if current is not yet in `first_travel_done`, and store
the neighbor list.  `ftWrites` is the ghost count of first-travel stores. -/
def processPair (g : Graph V) (gp gq : ℚ) (ss : V → Option Overrides)
    (source : V) (st : PState V) (current : V) : PState V :=
  let d0 := getNode st current
  let probs1 := dictInsert source (normalize (transWeights g gp gq ss source current))
      (d0.probabilities.getD [])
  if current ∈ st.done then
    { dg := fun n =>
        if n = current then
          some ⟨some probs1, d0.first_travel, some (g.nbrs current)⟩
        else st.dg n
      done := st.done
      ftWrites := st.ftWrites }
  else
    { dg := fun n =>
        if n = current then
          some ⟨some probs1, some (normalize (rawWeights g current)), some (g.nbrs current)⟩
        else st.dg n
      done := current :: st.done
      ftWrites := fun n => if n = current then st.ftWrites n + 1 else st.ftWrites n }

/-- One iteration of the outer loop (source lines 102-171): materialize the
source's probabilities dict, then process every neighbor of the source. -/
def processSource (g : Graph V) (gp gq : ℚ) (ss : V → Option Overrides)
    (st : PState V) (source : V) : PState V :=
  (g.nbrs source).foldl (processPair g gp gq ss source) (initProbs st source)

/-- Initial precomputation state: empty `d_graph`, empty
`first_travel_done`. -/
def initState : PState V :=
  { dg := fun _ => none, done := [], ftWrites := fun _ => 0 }

/-- The whole of `_precompute_probabilities` (source lines 93-171). -/
def precompute (g : Graph V) (gp gq : ℚ) (ss : V → Option Overrides) : PState V :=
  g.nodes.foldl (processSource g gp gq ss) initState

/-- Lookup `d_graph[current][probabilities][source]`. -/
def transitionOf (dg : V → Option (NodeDict V)) (current source : V) : Option (List ℚ) :=
  match dg current with
  | none => none
  | some d =>
    match d.probabilities with
    | none => none
    | some l => alookup source l

/-- Lookup `d_graph[n][first_travel_key]`. -/
def firstTravelOf (dg : V → Option (NodeDict V)) (n : V) : Option (List ℚ) :=
  match dg n with
  | none => none
  | some d => d.first_travel

/-- Lookup `d_graph[n][neighbors]`. -/
def neighborsOf (dg : V → Option (NodeDict V)) (n : V) : Option (List V) :=
  match dg n with
  | none => none
  | some d => d.neighbors

/-- A node occurs as a neighbor of at least one node of the graph. -/
def occursAsNbr (g : Graph V) (n : V) : Prop :=
  ∃ s, s ∈ g.nodes ∧ n ∈ g.nbrs s

/-- Lookup `d_graph[n][probabilities]` (the whole sub-dict). -/
def probsOf (dg : V → Option (NodeDict V)) (n : V) : Option (List (V × List ℚ)) :=
  match dg n with
  | none => none
  | some d => d.probabilities

/-- The invariant of `_precompute_probabilities`: every stored transition
vector is the normalized bias vector for its (previous, current) pair, every
stored first-travel vector is the normalized raw weight vector, every stored
neighbor list is the provider's neighbor list, membership in
`first_travel_done` coincides with the first-travel entry being present and
with the ghost write count being 1, and only nodes occurring as neighbors
carry any of those entries. -/
structure Inv (g : Graph V) (gp gq : ℚ) (ss : V → Option Overrides) (st : PState V) : Prop where
  trans_val : ∀ c s v, transitionOf st.dg c s = some v →
    v = normalize (transWeights g gp gq ss s c)
  ft_val : ∀ c v, firstTravelOf st.dg c = some v → v = normalize (rawWeights g c)
  nbrs_val : ∀ c nl, neighborsOf st.dg c = some nl → nl = g.nbrs c
  done_ft : ∀ c, c ∈ st.done ↔ firstTravelOf st.dg c ≠ none
  writes_done : ∀ c, st.ftWrites c = if c ∈ st.done then 1 else 0
  done_occurs : ∀ c, c ∈ st.done → occursAsNbr g c
  nbrs_occurs : ∀ c, neighborsOf st.dg c ≠ none → occursAsNbr g c
  dg_nodes : ∀ n, st.dg n ≠ none → n ∈ g.nodes ∨ occursAsNbr g n
  probs_some : ∀ n, st.dg n ≠ none → probsOf st.dg n ≠ none
  probs_occurs : ∀ n l, probsOf st.dg n = some l → l ≠ [] → occursAsNbr g n

/-- The fully-processed status of a node: its first-travel vector, done-set
membership, neighbor list and ghost write count are all in their final
state. -/
def FtDone (g : Graph V) (st : PState V) (c : V) : Prop :=
  firstTravelOf st.dg c = some (normalize (rawWeights g c)) ∧
  c ∈ st.done ∧
  neighborsOf st.dg c = some (g.nbrs c) ∧
  st.ftWrites c = 1

/-- The neighbor list a walk step sees: `d_graph[cur].get(neighbors_key,
None)` with a missing entry and an empty list both ending the walk.
Modelled from the spec: the Walk Sampler of §4.2 lives in
`node2vec/parallel.py`, which is not among the sources. -/
def nbrsRecorded (dg : V → Option (NodeDict V)) (n : V) : List V :=
  match dg n with
  | none => []
  | some d => d.neighbors.getD []

/-- Modelled from the spec: the Walk Sampler state machine of §4.2
(`node2vec/parallel.py` is not among the sources).  The walk is built
iteratively from `(none, start)`; each step stops at a node with no recorded
neighbors, draws from the first-travel vector when there is no previous node
and from the transition vector of (current, previous) otherwise, and a
missing table entry is a lookup error (`none`).  The categorical draw is
abstracted as the `choose` function; the walk (kept in reverse) grows until
the target length is reached. -/
def sampleWalkAux (dg : V → Option (NodeDict V)) (choose : List V → List ℚ → V) :
    ℕ → V → List V → Option (List V)
  | 0, cur, rest => some ((cur :: rest).reverse)
  | fuel + 1, cur, rest =>
    let ns := nbrsRecorded dg cur
    if ns = [] then some ((cur :: rest).reverse)
    else
      match rest with
      | [] =>
        match firstTravelOf dg cur with
        | none => none
        | some probs => sampleWalkAux dg choose fuel (choose ns probs) (cur :: rest)
      | prev :: _ =>
        match transitionOf dg cur prev with
        | none => none
        | some probs => sampleWalkAux dg choose fuel (choose ns probs) (cur :: rest)

/-- Modelled from the spec: draw one walk of target length `wl` starting at
`start` (§4.2).  The walk starts as `[start]` (length 1) and the loop runs
while the length is below the target, hence `wl - 1` steps at most. -/
def sampleWalk (dg : V → Option (NodeDict V)) (choose : List V → List ℚ → V)
    (start : V) (wl : ℕ) : Option (List V) :=
  sampleWalkAux dg choose (wl - 1) start []

/-- Sequence a list of fallible results, failing if any entry failed. -/
def seqOptions {α : Type _} : List (Option α) → Option (List α)
  | [] => some []
  | none :: _ => none
  | some a :: rest =>
    match seqOptions rest with
    | none => none
    | some l => some (a :: l)

/-- The slice lengths `np.array_split(range(l), k)` produces (source line
181): the first `l % k` slices have `l / k + 1` elements, the rest `l / k`. -/
def arraySplitSizes (l k : ℕ) : List ℕ :=
  (List.range k).map fun i => if i < l % k then l / k + 1 else l / k

/-- Modelled from the spec: one worker's batch (§4.3) — the worker iterates
over all nodes once per repetition assigned to it, sampling one walk per node
with that node's effective walk length (`parallel_generate_walks` of
`node2vec/parallel.py` is not among the sources).  A lookup error in any
single walk invalidates the whole batch. -/
def workerBatch (dg : V → Option (NodeDict V)) (ss : V → Option Overrides)
    (gwl cnt : ℕ) (nodes : List V) (choose : List V → List ℚ → V) :
    Option (List (List V)) :=
  seqOptions ((List.range cnt).flatMap fun _ =>
    nodes.map fun n => sampleWalk dg choose n (effWalkLength ss gwl n))

/-- `_generate_walks` (source lines 173-202): split `num_walks` across `k`
workers with `np.array_split`, run each worker on its slice, and concatenate
the per-worker walk lists in worker-index order.  The per-worker body is
modelled from the spec (see `workerBatch`). -/
def generateWalks (dg : V → Option (NodeDict V)) (ss : V → Option Overrides)
    (gwl numWalks k : ℕ) (nodes : List V) (choose : List V → List ℚ → V) :
    Option (List (List V)) :=
  (seqOptions ((arraySplitSizes numWalks k).map fun cnt =>
    workerBatch dg ss gwl cnt nodes choose)).map List.flatten

/-- The keyword-argument merging of `fit` (source lines 213-217): add
`workers` if the caller did not supply it, then add `size` (the embedding
dimensionality) if the caller did not supply it, and hand the result to the
trainer. -/
def fitParams (dims workers : ℕ) (ps : List (String × ℕ)) : List (String × ℕ) :=
  let ps1 := if (alookup "workers" ps).isNone then ps ++ [("workers", workers)] else ps
  if (alookup "size" ps1).isNone then ps1 ++ [("size", dims)] else ps1

/-- The construction sequence of `__init__` (source lines 79-91): Python's
`if temp_folder:` is false for `None` and for the empty string; a truthy path
that is not an existing directory raises `NotADirectoryError` before
`_precompute_probabilities` runs; otherwise the folder and the "sharedmem"
requirement are recorded and precomputation proceeds.  `os.path.isdir` is
abstracted as the oracle `isDir`. -/
def node2vecInit (isDir : String → Bool) (tf : Option String)
    (g : Graph V) (gp gq : ℚ) (ss : V → Option Overrides) :
    Except String ((Option String × Option String) × PState V) :=
  match tf with
  | none => .ok ((none, none), precompute g gp gq ss)
  | some s =>
    if s = "" then .ok ((none, none), precompute g gp gq ss)
    else if isDir s then .ok ((some s, some "sharedmem"), precompute g gp gq ss)
    else .error ("temp_folder does not exist or is not a directory. (" ++ s ++ ")")

/-- A triangle graph with unit weights, used to instantiate theorems. -/
def gT : Graph ℕ :=
  ⟨[0, 1, 2],
   fun n => if n = 0 then [1, 2] else if n = 1 then [0, 2] else if n = 2 then [0, 1] else [],
   fun _ _ => 1⟩

/-- A single-edge graph whose only edge has weight 0: all weights are
non-negative, yet the transition vector for either endpoint has sum 0. -/
def gZero : Graph ℕ :=
  ⟨[0, 1],
   fun n => if n = 0 then [1] else if n = 1 then [0] else [],
   fun _ _ => 0⟩

/-- A graph with an edge 0-1 and an isolated node 2. -/
def gIso : Graph ℕ :=
  ⟨[0, 1, 2],
   fun n => if n = 0 then [1] else if n = 1 then [0] else [],
   fun _ _ => 1⟩

/-- The empty graph. -/
def gE : Graph ℕ := ⟨[], fun _ => [], fun _ _ => 1⟩

/-- A hand-built walk table for the path graph 0-1, used to instantiate the
sampler theorems. -/
def dgPath : ℕ → Option (NodeDict ℕ) := fun n =>
  if n = 0 then some ⟨some [(1, [1])], some [1], some [1]⟩
  else if n = 1 then some ⟨some [(0, [1])], some [1], some [0]⟩
  else none

/-- A deterministic stand-in for the categorical draw: always the first
option. -/
def chooseHead : List ℕ → List ℚ → ℕ := fun ns _ => ns.headD 0

theorem alookup_dictInsert (k k2 : V) (v : List ℚ) (l : List (V × List ℚ)) :
    alookup k (dictInsert k2 v l) = if k2 = k then some v else alookup k l := by
  induction l with
  | nil => simp [alookup, dictInsert]
  | cons hd tl ih =>
    obtain ⟨k', v'⟩ := hd
    by_cases h : k' = k2
    · subst h
      simp only [dictInsert, if_pos rfl, alookup]
      by_cases h2 : k' = k <;> simp [h2]
    · simp only [dictInsert, if_neg h, alookup]
      by_cases h2 : k' = k
      · subst h2
        have hne : k2 ≠ k' := fun e => h e.symm
        simp [hne]
      · simp [h2, ih]

theorem dictInsert_ne_nil (k : V) (v : List ℚ) (l : List (V × List ℚ)) :
    dictInsert k v l ≠ [] := by
  cases l with
  | nil => simp [dictInsert]
  | cons hd tl =>
    obtain ⟨k', v'⟩ := hd
    by_cases h : k' = k <;> simp [dictInsert, h]

theorem getNode_probabilities (st : PState V) (n : V) :
    (getNode st n).probabilities = probsOf st.dg n := by
  unfold getNode probsOf
  cases st.dg n <;> rfl

theorem getNode_first_travel (st : PState V) (n : V) :
    (getNode st n).first_travel = firstTravelOf st.dg n := by
  unfold getNode firstTravelOf
  cases st.dg n <;> rfl

theorem getNode_neighbors (st : PState V) (n : V) :
    (getNode st n).neighbors = neighborsOf st.dg n := by
  unfold getNode neighborsOf
  cases st.dg n <;> rfl

theorem transitionOf_eq_alookup (dg : V → Option (NodeDict V)) (c s : V) :
    transitionOf dg c s = match probsOf dg c with
      | none => none
      | some l => alookup s l := by
  unfold transitionOf probsOf
  cases dg c <;> rfl

theorem probsOf_update (dg : V → Option (NodeDict V)) (n : V) (d : NodeDict V) (c : V) :
    probsOf (fun m => if m = n then some d else dg m) c =
      if c = n then d.probabilities else probsOf dg c := by
  unfold probsOf
  by_cases h : c = n <;> simp [h]

theorem firstTravelOf_update (dg : V → Option (NodeDict V)) (n : V) (d : NodeDict V) (c : V) :
    firstTravelOf (fun m => if m = n then some d else dg m) c =
      if c = n then d.first_travel else firstTravelOf dg c := by
  unfold firstTravelOf
  by_cases h : c = n <;> simp [h]

theorem neighborsOf_update (dg : V → Option (NodeDict V)) (n : V) (d : NodeDict V) (c : V) :
    neighborsOf (fun m => if m = n then some d else dg m) c =
      if c = n then d.neighbors else neighborsOf dg c := by
  unfold neighborsOf
  by_cases h : c = n <;> simp [h]

theorem probsOf_initProbs (st : PState V) (m c : V) :
    probsOf (initProbs st m).dg c =
      if c = m then some ((probsOf st.dg m).getD []) else probsOf st.dg c := by
  unfold initProbs
  rw [probsOf_update]
  simp [getNode_probabilities]

theorem firstTravelOf_initProbs (st : PState V) (m c : V) :
    firstTravelOf (initProbs st m).dg c = firstTravelOf st.dg c := by
  unfold initProbs
  rw [firstTravelOf_update]
  by_cases h : c = m
  · subst h
    simp [getNode_first_travel]
  · simp [h]

theorem neighborsOf_initProbs (st : PState V) (m c : V) :
    neighborsOf (initProbs st m).dg c = neighborsOf st.dg c := by
  unfold initProbs
  rw [neighborsOf_update]
  by_cases h : c = m
  · subst h
    simp [getNode_neighbors]
  · simp [h]

theorem transitionOf_initProbs (st : PState V) (m c s : V) :
    transitionOf (initProbs st m).dg c s = transitionOf st.dg c s := by
  rw [transitionOf_eq_alookup, transitionOf_eq_alookup, probsOf_initProbs]
  by_cases h : c = m
  · subst h
    cases hp : probsOf st.dg c <;> simp [alookup]
  · simp [h]

theorem done_initProbs (st : PState V) (m : V) :
    (initProbs st m).done = st.done := rfl

theorem ftWrites_initProbs (st : PState V) (m : V) :
    (initProbs st m).ftWrites = st.ftWrites := rfl

theorem dg_initProbs_isSome (st : PState V) (m c : V) (h : st.dg c ≠ none) :
    (initProbs st m).dg c ≠ none := by
  unfold initProbs
  by_cases hc : c = m <;> simp [hc, h]

theorem probsOf_processPair (g : Graph V) (gp gq : ℚ) (ss : V → Option Overrides)
    (source : V) (st : PState V) (current c : V) :
    probsOf (processPair g gp gq ss source st current).dg c =
      if c = current then
        some (dictInsert source (normalize (transWeights g gp gq ss source current))
          ((probsOf st.dg current).getD []))
      else probsOf st.dg c := by
  unfold processPair
  by_cases hd : current ∈ st.done <;>
    simp only [hd, if_pos, if_neg, ite_true, ite_false] <;>
      rw [probsOf_update] <;>
        simp [getNode_probabilities]

theorem transitionOf_processPair (g : Graph V) (gp gq : ℚ) (ss : V → Option Overrides)
    (source : V) (st : PState V) (current c s : V) :
    transitionOf (processPair g gp gq ss source st current).dg c s =
      if c = current ∧ s = source then
        some (normalize (transWeights g gp gq ss source current))
      else transitionOf st.dg c s := by
  rw [transitionOf_eq_alookup, transitionOf_eq_alookup, probsOf_processPair]
  by_cases hc : c = current
  · subst hc
    simp only [eq_self_iff_true, if_true, true_and, ite_true]
    rw [alookup_dictInsert]
    by_cases hs : s = source
    · simp [hs]
    · have h2 : ¬ (source = s) := fun e => hs e.symm
      simp only [h2, ite_false, if_neg hs]
      cases hp : probsOf st.dg c <;> simp [alookup]
  · simp [hc]

theorem firstTravelOf_processPair (g : Graph V) (gp gq : ℚ) (ss : V → Option Overrides)
    (source : V) (st : PState V) (current c : V) :
    firstTravelOf (processPair g gp gq ss source st current).dg c =
      if c = current ∧ current ∉ st.done then
        some (normalize (rawWeights g current))
      else firstTravelOf st.dg c := by
  unfold processPair
  by_cases hd : current ∈ st.done <;>
    simp only [hd, if_pos, if_neg, ite_true, ite_false] <;>
      rw [firstTravelOf_update] <;>
        by_cases hc : c = current <;>
          simp [hc, hd, getNode_first_travel]

theorem neighborsOf_processPair (g : Graph V) (gp gq : ℚ) (ss : V → Option Overrides)
    (source : V) (st : PState V) (current c : V) :
    neighborsOf (processPair g gp gq ss source st current).dg c =
      if c = current then some (g.nbrs current) else neighborsOf st.dg c := by
  unfold processPair
  by_cases hd : current ∈ st.done <;>
    simp only [hd, if_pos, if_neg, ite_true, ite_false] <;>
      rw [neighborsOf_update]

theorem done_processPair (g : Graph V) (gp gq : ℚ) (ss : V → Option Overrides)
    (source : V) (st : PState V) (current : V) :
    (processPair g gp gq ss source st current).done =
      if current ∈ st.done then st.done else current :: st.done := by
  unfold processPair
  by_cases hd : current ∈ st.done <;> simp [hd]

theorem ftWrites_processPair (g : Graph V) (gp gq : ℚ) (ss : V → Option Overrides)
    (source : V) (st : PState V) (current c : V) :
    (processPair g gp gq ss source st current).ftWrites c =
      if c = current ∧ current ∉ st.done then st.ftWrites c + 1 else st.ftWrites c := by
  unfold processPair
  by_cases hd : current ∈ st.done <;>
    by_cases hc : c = current <;>
      simp [hd, hc]

theorem dg_processPair_isSome (g : Graph V) (gp gq : ℚ) (ss : V → Option Overrides)
    (source : V) (st : PState V) (current c : V) (h : st.dg c ≠ none) :
    (processPair g gp gq ss source st current).dg c ≠ none := by
  unfold processPair
  by_cases hd : current ∈ st.done <;>
    by_cases hc : c = current <;>
      simp [hd, hc, h]

theorem dg_processPair_none (g : Graph V) (gp gq : ℚ) (ss : V → Option Overrides)
    (source : V) (st : PState V) (current c : V)
    (h : (processPair g gp gq ss source st current).dg c ≠ none) (hc : c ≠ current) :
    st.dg c ≠ none := by
  unfold processPair at h
  by_cases hd : current ∈ st.done <;> simp [hd, hc] at h <;> exact h

theorem dg_initProbs_none (st : PState V) (m c : V)
    (h : (initProbs st m).dg c ≠ none) (hc : c ≠ m) : st.dg c ≠ none := by
  unfold initProbs at h
  simp [hc] at h
  exact h

theorem foldl_inv {α β : Type _} (f : α → β → α) (P : α → Prop) (l : List β)
    (hstep : ∀ a, ∀ b ∈ l, P a → P (f a b)) (a : α) (ha : P a) : P (l.foldl f a) := by
  induction l generalizing a with
  | nil => exact ha
  | cons b tl ih =>
    exact ih (fun a' b' hb' h' => hstep a' b' (List.mem_cons_of_mem b hb') h')
      (f a b) (hstep a b (List.mem_cons_self b tl) ha)

theorem foldl_reach {α β : Type _} (f : α → β → α) (I P : α → Prop) (l : List β) (x : β)
    (hx : x ∈ l)
    (hI : ∀ a, ∀ b ∈ l, I a → I (f a b))
    (hP : ∀ a, ∀ b ∈ l, P a → P (f a b))
    (hEst : ∀ a, I a → P (f a x))
    (a : α) (ha : I a) : P (l.foldl f a) := by
  induction l generalizing a with
  | nil => cases hx
  | cons b tl ih =>
    rcases List.mem_cons.mp hx with hxb | hxtl
    · subst hxb
      exact foldl_inv f P tl
        (fun a' b' hb' h' => hP a' b' (List.mem_cons_of_mem x hb') h')
        (f a x) (hEst a ha)
    · exact ih hxtl
        (fun a' b' hb' h' => hI a' b' (List.mem_cons_of_mem b hb') h')
        (fun a' b' hb' h' => hP a' b' (List.mem_cons_of_mem b hb') h')
        (f a b) (hI a b (List.mem_cons_self b tl) ha)

theorem inv_initState (g : Graph V) (gp gq : ℚ) (ss : V → Option Overrides) :
    Inv g gp gq ss (initState : PState V) := by
  constructor <;>
    simp [initState, transitionOf, firstTravelOf, neighborsOf, probsOf]

theorem inv_initProbs (g : Graph V) (gp gq : ℚ) (ss : V → Option Overrides)
    (st : PState V) (m : V) (hm : m ∈ g.nodes ∨ occursAsNbr g m)
    (h : Inv g gp gq ss st) : Inv g gp gq ss (initProbs st m) := by
  constructor
  · intro c s v hv
    rw [transitionOf_initProbs] at hv
    exact h.trans_val c s v hv
  · intro c v hv
    rw [firstTravelOf_initProbs] at hv
    exact h.ft_val c v hv
  · intro c nl hnl
    rw [neighborsOf_initProbs] at hnl
    exact h.nbrs_val c nl hnl
  · intro c
    rw [done_initProbs, firstTravelOf_initProbs]
    exact h.done_ft c
  · intro c
    rw [ftWrites_initProbs, done_initProbs]
    exact h.writes_done c
  · intro c hc
    rw [done_initProbs] at hc
    exact h.done_occurs c hc
  · intro c hc
    rw [neighborsOf_initProbs] at hc
    exact h.nbrs_occurs c hc
  · intro n hn
    by_cases hnm : n = m
    · subst hnm; exact hm
    · exact h.dg_nodes n (dg_initProbs_none st m n hn hnm)
  · intro n hn
    rw [probsOf_initProbs]
    by_cases hnm : n = m <;> simp [hnm]
    exact h.probs_some n (dg_initProbs_none st m n hn hnm)
  · intro n l hl hne
    rw [probsOf_initProbs] at hl
    by_cases hnm : n = m
    · subst hnm
      simp at hl
      cases hp : probsOf st.dg n with
      | none => rw [hp] at hl; simp at hl; exact absurd hl hne
      | some l' =>
        rw [hp] at hl
        simp at hl
        exact h.probs_occurs n l' hp (by rw [hl]; exact hne)
    · rw [if_neg hnm] at hl
      exact h.probs_occurs n l hl hne

theorem inv_processPair (g : Graph V) (gp gq : ℚ) (ss : V → Option Overrides)
    (source : V) (st : PState V) (current : V) (hc : occursAsNbr g current)
    (h : Inv g gp gq ss st) : Inv g gp gq ss (processPair g gp gq ss source st current) := by
  constructor
  · intro c s v hv
    rw [transitionOf_processPair] at hv
    by_cases hcs : c = current ∧ s = source
    · obtain ⟨h1, h2⟩ := hcs
      subst h1; subst h2
      rw [if_pos ⟨rfl, rfl⟩] at hv
      exact (Option.some_inj.mp hv).symm
    · rw [if_neg hcs] at hv
      exact h.trans_val c s v hv
  · intro c v hv
    rw [firstTravelOf_processPair] at hv
    by_cases hcd : c = current ∧ current ∉ st.done
    · rw [if_pos hcd] at hv
      rw [hcd.1]
      exact (Option.some_inj.mp hv).symm
    · rw [if_neg hcd] at hv
      exact h.ft_val c v hv
  · intro c nl hnl
    rw [neighborsOf_processPair] at hnl
    by_cases hcc : c = current
    · rw [if_pos hcc] at hnl
      rw [hcc]
      exact (Option.some_inj.mp hnl).symm
    · rw [if_neg hcc] at hnl
      exact h.nbrs_val c nl hnl
  · intro c
    rw [done_processPair, firstTravelOf_processPair]
    by_cases hd : current ∈ st.done
    · have : ¬ (c = current ∧ current ∉ st.done) := fun hx => hx.2 hd
      rw [if_pos hd, if_neg this]
      exact h.done_ft c
    · rw [if_neg hd]
      by_cases hcc : c = current
      · subst hcc
        simp [hd]
      · simp only [List.mem_cons, hcc, false_or, false_and, if_neg, ite_false]
        exact h.done_ft c
  · intro c
    rw [ftWrites_processPair, done_processPair]
    by_cases hd : current ∈ st.done
    · have : ¬ (c = current ∧ current ∉ st.done) := fun hx => hx.2 hd
      rw [if_neg this, if_pos hd]
      exact h.writes_done c
    · rw [if_neg hd]
      by_cases hcc : c = current
      · subst hcc
        rw [if_pos ⟨rfl, hd⟩, h.writes_done c, if_neg hd, if_pos (List.mem_cons_self c _)]
      · have : ¬ (c = current ∧ current ∉ st.done) := fun hx => hcc hx.1
        rw [if_neg this, h.writes_done c]
        have hmem : c ∈ current :: st.done ↔ c ∈ st.done := by
          simp [List.mem_cons, hcc]
        by_cases hcd : c ∈ st.done <;> simp [hcd, hmem, hcc]
  · intro c hcd
    rw [done_processPair] at hcd
    by_cases hd : current ∈ st.done
    · rw [if_pos hd] at hcd
      exact h.done_occurs c hcd
    · rw [if_neg hd] at hcd
      rcases List.mem_cons.mp hcd with h1 | h1
      · subst h1; exact hc
      · exact h.done_occurs c h1
  · intro c hcn
    rw [neighborsOf_processPair] at hcn
    by_cases hcc : c = current
    · subst hcc; exact hc
    · rw [if_neg hcc] at hcn
      exact h.nbrs_occurs c hcn
  · intro n hn
    by_cases hcc : n = current
    · subst hcc; exact Or.inr hc
    · exact h.dg_nodes n (dg_processPair_none g gp gq ss source st current n hn hcc)
  · intro n hn
    rw [probsOf_processPair]
    by_cases hcc : n = current <;> simp [hcc]
    exact h.probs_some n (dg_processPair_none g gp gq ss source st current n hn hcc)
  · intro n l hl hne
    rw [probsOf_processPair] at hl
    by_cases hcc : n = current
    · subst hcc; exact hc
    · rw [if_neg hcc] at hl
      exact h.probs_occurs n l hl hne

theorem inv_processSource (g : Graph V) (gp gq : ℚ) (ss : V → Option Overrides)
    (st : PState V) (s : V) (hs : s ∈ g.nodes)
    (h : Inv g gp gq ss st) : Inv g gp gq ss (processSource g gp gq ss st s) := by
  unfold processSource
  exact foldl_inv _ (Inv g gp gq ss) _
    (fun st' c hc h' => inv_processPair g gp gq ss s st' c ⟨s, hs, hc⟩ h')
    _ (inv_initProbs g gp gq ss st s (Or.inl hs) h)

theorem inv_precompute (g : Graph V) (gp gq : ℚ) (ss : V → Option Overrides) :
    Inv g gp gq ss (precompute g gp gq ss) := by
  unfold precompute
  exact foldl_inv _ (Inv g gp gq ss) _
    (fun st' s hs h' => inv_processSource g gp gq ss st' s hs h')
    _ (inv_initState g gp gq ss)

theorem transPresent_pair (g : Graph V) (gp gq : ℚ) (ss : V → Option Overrides)
    (c s source' current' : V) (st : PState V)
    (hP : transitionOf st.dg c s = some (normalize (transWeights g gp gq ss s c))) :
    transitionOf (processPair g gp gq ss source' st current').dg c s =
      some (normalize (transWeights g gp gq ss s c)) := by
  rw [transitionOf_processPair]
  by_cases h : c = current' ∧ s = source'
  · obtain ⟨h1, h2⟩ := h
    subst h1; subst h2
    rw [if_pos ⟨rfl, rfl⟩]
  · rw [if_neg h]
    exact hP

theorem transPresent_processSource (g : Graph V) (gp gq : ℚ) (ss : V → Option Overrides)
    (c s b : V) (st : PState V)
    (hP : transitionOf st.dg c s = some (normalize (transWeights g gp gq ss s c))) :
    transitionOf (processSource g gp gq ss st b).dg c s =
      some (normalize (transWeights g gp gq ss s c)) := by
  unfold processSource
  refine foldl_inv _
    (fun st' => transitionOf st'.dg c s = some (normalize (transWeights g gp gq ss s c))) _
    (fun st' c' _ h' => transPresent_pair g gp gq ss c s b c' st' h') _ ?_
  show transitionOf (initProbs st b).dg c s = some (normalize (transWeights g gp gq ss s c))
  rw [transitionOf_initProbs]
  exact hP

theorem trans_present (g : Graph V) (gp gq : ℚ) (ss : V → Option Overrides)
    (s c : V) (hs : s ∈ g.nodes) (hc : c ∈ g.nbrs s) :
    transitionOf (precompute g gp gq ss).dg c s =
      some (normalize (transWeights g gp gq ss s c)) := by
  unfold precompute
  refine foldl_reach _ (fun _ => True)
    (fun st' => transitionOf st'.dg c s = some (normalize (transWeights g gp gq ss s c)))
    _ s hs (fun _ _ _ _ => trivial)
    (fun st' b _ h' => transPresent_processSource g gp gq ss c s b st' h')
    (fun st' _ => ?_) _ trivial
  unfold processSource
  refine foldl_reach _ (fun _ => True)
    (fun st'' => transitionOf st''.dg c s = some (normalize (transWeights g gp gq ss s c)))
    _ c hc (fun _ _ _ _ => trivial)
    (fun st'' c' _ h' => transPresent_pair g gp gq ss c s s c' st'' h')
    (fun st'' _ => ?_) _ trivial
  show transitionOf (processPair g gp gq ss s st'' c).dg c s =
    some (normalize (transWeights g gp gq ss s c))
  rw [transitionOf_processPair, if_pos ⟨rfl, rfl⟩]

theorem ftDone_pair (g : Graph V) (gp gq : ℚ) (ss : V → Option Overrides)
    (c source' current' : V) (st : PState V)
    (hP : FtDone g st c) : FtDone g (processPair g gp gq ss source' st current') c := by
  obtain ⟨hf, hd, hn, hw⟩ := hP
  have hcond : ¬ (c = current' ∧ current' ∉ st.done) := by
    rintro ⟨h1, h2⟩
    exact h2 (h1 ▸ hd)
  refine ⟨?_, ?_, ?_, ?_⟩
  · rw [firstTravelOf_processPair, if_neg hcond]
    exact hf
  · rw [done_processPair]
    by_cases h : current' ∈ st.done
    · rw [if_pos h]; exact hd
    · rw [if_neg h]; exact List.mem_cons_of_mem _ hd
  · rw [neighborsOf_processPair]
    by_cases h : c = current'
    · subst h; rw [if_pos rfl]
    · rw [if_neg h]; exact hn
  · rw [ftWrites_processPair, if_neg hcond]
    exact hw

theorem ftDone_initProbs (g : Graph V) (st : PState V) (m c : V)
    (hP : FtDone g st c) : FtDone g (initProbs st m) c := by
  obtain ⟨hf, hd, hn, hw⟩ := hP
  exact ⟨by rw [firstTravelOf_initProbs]; exact hf,
    by rw [done_initProbs]; exact hd,
    by rw [neighborsOf_initProbs]; exact hn,
    by rw [ftWrites_initProbs]; exact hw⟩

theorem ftDone_est (g : Graph V) (gp gq : ℚ) (ss : V → Option Overrides)
    (c source' : V) (st : PState V) (hinv : Inv g gp gq ss st) :
    FtDone g (processPair g gp gq ss source' st c) c := by
  by_cases hd : c ∈ st.done
  · have hcond : ¬ (c = c ∧ c ∉ st.done) := fun hx => hx.2 hd
    have hft : firstTravelOf st.dg c ≠ none := (hinv.done_ft c).mp hd
    obtain ⟨v, hv⟩ := Option.ne_none_iff_exists'.mp hft
    refine ⟨?_, ?_, ?_, ?_⟩
    · rw [firstTravelOf_processPair, if_neg hcond, hv,
        hinv.ft_val c v hv]
    · rw [done_processPair, if_pos hd]; exact hd
    · rw [neighborsOf_processPair, if_pos rfl]
    · rw [ftWrites_processPair, if_neg hcond, hinv.writes_done c, if_pos hd]
  · refine ⟨?_, ?_, ?_, ?_⟩
    · rw [firstTravelOf_processPair, if_pos ⟨rfl, hd⟩]
    · rw [done_processPair, if_neg hd]
      exact List.mem_cons_self c _
    · rw [neighborsOf_processPair, if_pos rfl]
    · rw [ftWrites_processPair, if_pos ⟨rfl, hd⟩, hinv.writes_done c, if_neg hd]

theorem ftDone_processSource (g : Graph V) (gp gq : ℚ) (ss : V → Option Overrides)
    (c b : V) (st : PState V) (hP : FtDone g st c) :
    FtDone g (processSource g gp gq ss st b) c := by
  unfold processSource
  exact foldl_inv _ (fun st' => FtDone g st' c) _
    (fun st' c' _ h' => ftDone_pair g gp gq ss c b c' st' h') _
    (ftDone_initProbs g st b c hP)

theorem ftDone_present (g : Graph V) (gp gq : ℚ) (ss : V → Option Overrides)
    (s c : V) (hs : s ∈ g.nodes) (hc : c ∈ g.nbrs s) :
    FtDone g (precompute g gp gq ss) c := by
  unfold precompute
  refine foldl_reach _ (Inv g gp gq ss) (fun st' => FtDone g st' c)
    _ s hs (fun st' b hb h' => inv_processSource g gp gq ss st' b hb h')
    (fun st' b _ h' => ftDone_processSource g gp gq ss c b st' h')
    (fun st' h' => ?_) _ (inv_initState g gp gq ss)
  unfold processSource
  refine foldl_reach _ (Inv g gp gq ss) (fun st'' => FtDone g st'' c)
    _ c hc (fun st'' c' hc' h'' => inv_processPair g gp gq ss s st'' c' ⟨s, hs, hc'⟩ h'')
    (fun st'' c' _ h'' => ftDone_pair g gp gq ss c s c' st'' h'')
    (fun st'' h'' => ftDone_est g gp gq ss c s st'' h'')
    _ (inv_initProbs g gp gq ss st' s (Or.inl hs) h')

theorem dg_present (g : Graph V) (gp gq : ℚ) (ss : V → Option Overrides)
    (n : V) (hn : n ∈ g.nodes) : (precompute g gp gq ss).dg n ≠ none := by
  unfold precompute
  refine foldl_reach _ (fun _ => True) (fun st' : PState V => st'.dg n ≠ none)
    _ n hn (fun _ _ _ _ => trivial)
    (fun st' b _ h' => ?_) (fun st' _ => ?_) _ trivial
  · show (processSource g gp gq ss st' b).dg n ≠ none
    unfold processSource
    exact foldl_inv _ (fun st'' : PState V => st''.dg n ≠ none) _
      (fun st'' c' _ h'' => dg_processPair_isSome g gp gq ss b st'' c' n h'')
      _ (dg_initProbs_isSome st' b n h')
  · show (processSource g gp gq ss st' n).dg n ≠ none
    unfold processSource
    refine foldl_inv _ (fun st'' : PState V => st''.dg n ≠ none) _
      (fun st'' c' _ h'' => dg_processPair_isSome g gp gq ss n st'' c' n h'') _ ?_
    unfold initProbs
    simp

theorem normalize_length (l : List ℚ) : (normalize l).length = l.length := by
  simp [normalize]

theorem sum_map_div (l : List ℚ) (s : ℚ) : (l.map (fun x => x / s)).sum = l.sum / s := by
  induction l with
  | nil => simp
  | cons a tl ih => simp [ih, add_div]

theorem normalize_sum (l : List ℚ) (h : l.sum ≠ 0) : (normalize l).sum = 1 := by
  unfold normalize
  rw [sum_map_div]
  exact div_self h

theorem normalize_nonneg (l : List ℚ) (h : ∀ x ∈ l, 0 ≤ x) :
    ∀ y ∈ normalize l, 0 ≤ y := by
  intro y hy
  unfold normalize at hy
  obtain ⟨x, hx, rfl⟩ := List.mem_map.mp hy
  exact div_nonneg (h x hx) (List.sum_nonneg h)

theorem sum_pos_of_pos (l : List ℚ) (h : ∀ x ∈ l, 0 < x) (hne : l ≠ []) :
    0 < l.sum := by
  cases l with
  | nil => exact absurd rfl hne
  | cons a tl =>
    simp only [List.sum_cons]
    have ha : 0 < a := h a (List.mem_cons_self a tl)
    have htl : 0 ≤ tl.sum :=
      List.sum_nonneg (fun x hx => le_of_lt (h x (List.mem_cons_of_mem a hx)))
    linarith

theorem goodVec (l : List ℚ) (h : ∀ x ∈ l, 0 < x) (hne : l ≠ []) :
    (∀ x ∈ normalize l, 0 ≤ x) ∧ (normalize l).sum = 1 :=
  ⟨normalize_nonneg l (fun x hx => le_of_lt (h x hx)),
   normalize_sum l (ne_of_gt (sum_pos_of_pos l h hne))⟩

theorem transWeights_pos (g : Graph V) (gp gq : ℚ) (ss : V → Option Overrides)
    (s c : V) (hw : ∀ b ∈ g.nbrs c, 0 < g.w c b)
    (hp : 0 < effP ss gp c) (hq : 0 < effQ ss gq c) :
    ∀ x ∈ transWeights g gp gq ss s c, 0 < x := by
  intro x hx
  unfold transWeights at hx
  obtain ⟨d, hd, rfl⟩ := List.mem_map.mp hx
  unfold biasWeight
  by_cases h1 : d = s
  · rw [if_pos h1]
    exact div_pos (hw d hd) hp
  · rw [if_neg h1]
    by_cases h2 : d ∈ g.nbrs s
    · rw [if_pos h2]
      exact hw d hd
    · rw [if_neg h2]
      exact div_pos (hw d hd) hq

theorem rawWeights_pos (g : Graph V) (c : V) (hw : ∀ b ∈ g.nbrs c, 0 < g.w c b) :
    ∀ x ∈ rawWeights g c, 0 < x := by
  intro x hx
  unfold rawWeights at hx
  obtain ⟨d, hd, rfl⟩ := List.mem_map.mp hx
  exact hw d hd

theorem transWeights_ne_nil (g : Graph V) (gp gq : ℚ) (ss : V → Option Overrides)
    (s c : V) (hn : g.nbrs c ≠ []) : transWeights g gp gq ss s c ≠ [] := by
  simp [transWeights, hn]

theorem rawWeights_ne_nil (g : Graph V) (c : V) (hn : g.nbrs c ≠ []) :
    rawWeights g c ≠ [] := by
  simp [rawWeights, hn]

theorem normalize_map {α : Type} (f : α → ℚ) (l : List α) :
    normalize (l.map f) = l.map (fun x => f x / (l.map f).sum) := by
  unfold normalize
  rw [List.map_map]
  rfl

/-- C1: for every directed step source→current (source a graph node, current
one of its neighbors), the precomputer stores under
TransitionTable[current][source] the normalization of the unnormalized
weight vector computed by the node2vec bias rule with the effective `p` and
`q` resolved for current: weight/p when the destination equals the source,
the raw weight when the destination is also a neighbor of the source, and
weight/q otherwise. -/
theorem claim_C1 (g : Graph V) (gp gq : ℚ) (ss : V → Option Overrides)
    (source current : V) (hs : source ∈ g.nodes) (hc : current ∈ g.nbrs source) :
    transitionOf (precompute g gp gq ss).dg current source =
      some (normalize ((g.nbrs current).map
        (biasWeight g (effP ss gp current) (effQ ss gq current) source current))) :=
  trans_present g gp gq ss source current hs hc

/-- C5 (for the nodes that receive an entry, i.e. those occurring as a
neighbor): the first-travel distribution is computed and stored exactly once
— the ghost count of first-travel stores is exactly 1, however many distinct
sources trigger processing of the node — and it is the normalization of the
raw edge weights over the node's neighbors, with no p or q bias applied. -/
theorem claim_C5 (g : Graph V) (gp gq : ℚ) (ss : V → Option Overrides)
    (n : V) (hocc : occursAsNbr g n) :
    (precompute g gp gq ss).ftWrites n = 1 ∧
    firstTravelOf (precompute g gp gq ss).dg n =
      some (normalize ((g.nbrs n).map (fun d => g.w n d))) := by
  obtain ⟨s, hs, hn⟩ := hocc
  obtain ⟨hf, _, _, hw⟩ := ftDone_present g gp gq ss s n hs hn
  exact ⟨hw, hf⟩

/-- C6: for every node with a stored NeighborList, the length of the stored
neighbor list equals the length of every probability vector stored for that
node (each TransitionTable entry and the FirstTravelTable entry), and each
such vector is positionally aligned with the neighbor list: it is the map of
a function over the neighbor list, so index i is a function of neighbor i. -/
theorem claim_C6 (g : Graph V) (gp gq : ℚ) (ss : V → Option Overrides)
    (n : V) (nl : List V)
    (hnl : neighborsOf (precompute g gp gq ss).dg n = some nl) :
    (∀ s v, transitionOf (precompute g gp gq ss).dg n s = some v →
      v.length = nl.length ∧ ∃ f : V → ℚ, v = nl.map f) ∧
    (∀ v, firstTravelOf (precompute g gp gq ss).dg n = some v →
      v.length = nl.length ∧ ∃ f : V → ℚ, v = nl.map f) := by
  have hinv := inv_precompute g gp gq ss
  have hnl' : nl = g.nbrs n := hinv.nbrs_val n nl hnl
  subst hnl'
  constructor
  · intro s v hv
    have hval := hinv.trans_val n s v hv
    rw [hval]
    constructor
    · rw [normalize_length]
      unfold transWeights
      rw [List.length_map]
    · unfold transWeights
      rw [normalize_map]
      exact ⟨_, rfl⟩
  · intro v hv
    have hval := hinv.ft_val n v hv
    rw [hval]
    constructor
    · rw [normalize_length]
      unfold rawWeights
      rw [List.length_map]
    · unfold rawWeights
      rw [normalize_map]
      exact ⟨_, rfl⟩

/-- C2 as amended: after precomputation, for every node with at least one
neighbor, every probability vector stored for that node (each
TransitionTable entry and the FirstTravelTable entry) has no negative
entries and sums to 1 — under the precondition that all edge weights are
POSITIVE (not merely non-negative: an all-zero weight vector has sum 0 and
its "normalization" is not a distribution, see the counterexample) and that
the effective p and q are positive. -/
theorem claim_C2 (g : Graph V) (gp gq : ℚ) (ss : V → Option Overrides)
    (hw : ∀ a : V, ∀ b ∈ g.nbrs a, 0 < g.w a b)
    (hp : ∀ m : V, 0 < effP ss gp m) (hq : ∀ m : V, 0 < effQ ss gq m)
    (n : V) (hn : g.nbrs n ≠ []) :
    (∀ s v, transitionOf (precompute g gp gq ss).dg n s = some v →
      (∀ x ∈ v, 0 ≤ x) ∧ v.sum = 1) ∧
    (∀ v, firstTravelOf (precompute g gp gq ss).dg n = some v →
      (∀ x ∈ v, 0 ≤ x) ∧ v.sum = 1) := by
  have hinv := inv_precompute g gp gq ss
  constructor
  · intro s v hv
    rw [hinv.trans_val n s v hv]
    exact goodVec _ (transWeights_pos g gp gq ss s n (hw n) (hp n) (hq n))
      (transWeights_ne_nil g gp gq ss s n hn)
  · intro v hv
    rw [hinv.ft_val n v hv]
    exact goodVec _ (rawWeights_pos g n (hw n)) (rawWeights_ne_nil g n hn)

/-- C2 counterexample: on the single-edge graph whose edge weight is 0, all
edge weights are non-negative and the effective p and q (both 1) are
positive, node 1 has a neighbor, yet the stored transition vector is [0]
(the exact-arithmetic image of numpy's 0/0; in floating point it is NaN),
which does not sum to 1 — so non-negative weights do not suffice. -/
theorem claim_C2_counterexample :
    (∀ a b : ℕ, 0 ≤ gZero.w a b) ∧
    (∀ m : ℕ, 0 < effP (fun _ : ℕ => none) 1 m) ∧
    (∀ m : ℕ, 0 < effQ (fun _ : ℕ => none) 1 m) ∧
    gZero.nbrs 1 ≠ [] ∧
    transitionOf (precompute gZero 1 1 (fun _ => none)).dg 1 0 = some [0] ∧
    ¬ (([0] : List ℚ).sum = 1) := by
  refine ⟨fun a b => le_refl 0, fun m => ?_, fun m => ?_, by decide, ?_, by norm_num⟩
  · norm_num [effP]
  · norm_num [effQ]
  · norm_num [precompute, processSource, processPair, initProbs, initState, transitionOf,
      probsOf, getNode, alookup, dictInsert, transWeights, biasWeight, normalize,
      rawWeights, effP, effQ, gZero]

/-- C10: after precomputation a node carries a stored NeighborList,
FirstTravelTable entry, and TransitionTable entries exactly when it occurs
as a neighbor of at least one graph node; a graph node with no incoming
neighbor occurrences is left with only an empty transition-probability
mapping. -/
theorem claim_C10 (g : Graph V) (gp gq : ℚ) (ss : V → Option Overrides) (n : V) :
    (neighborsOf (precompute g gp gq ss).dg n ≠ none ↔ occursAsNbr g n) ∧
    (firstTravelOf (precompute g gp gq ss).dg n ≠ none ↔ occursAsNbr g n) ∧
    ((∃ s v, transitionOf (precompute g gp gq ss).dg n s = some v) ↔ occursAsNbr g n) ∧
    (n ∈ g.nodes → ¬ occursAsNbr g n →
      (precompute g gp gq ss).dg n = some ⟨some [], none, none⟩) := by
  have hinv := inv_precompute g gp gq ss
  refine ⟨⟨fun h => hinv.nbrs_occurs n h, fun hocc => ?_⟩,
    ⟨fun h => hinv.done_occurs n ((hinv.done_ft n).mpr h), fun hocc => ?_⟩,
    ⟨fun h => ?_, fun hocc => ?_⟩, fun hn hnocc => ?_⟩
  · obtain ⟨s, hs, hc⟩ := hocc
    obtain ⟨_, _, hnb, _⟩ := ftDone_present g gp gq ss s n hs hc
    rw [hnb]
    exact Option.some_ne_none _
  · obtain ⟨s, hs, hc⟩ := hocc
    obtain ⟨hf, _, _, _⟩ := ftDone_present g gp gq ss s n hs hc
    rw [hf]
    exact Option.some_ne_none _
  · obtain ⟨s, v, hv⟩ := h
    rw [transitionOf_eq_alookup] at hv
    cases hp : probsOf (precompute g gp gq ss).dg n with
    | none => rw [hp] at hv; simp at hv
    | some l =>
      rw [hp] at hv
      simp only at hv
      have hl : l ≠ [] := by
        intro he
        subst he
        simp [alookup] at hv
      exact hinv.probs_occurs n l hp hl
  · obtain ⟨s, hs, hc⟩ := hocc
    exact ⟨s, _, trans_present g gp gq ss s n hs hc⟩
  · have hdg := dg_present g gp gq ss n hn
    cases hd : (precompute g gp gq ss).dg n with
    | none => exact absurd hd hdg
    | some d =>
      obtain ⟨dp, df, dn⟩ := d
      have hpd : probsOf (precompute g gp gq ss).dg n = dp := by
        simp [probsOf, hd]
      have hfd : firstTravelOf (precompute g gp gq ss).dg n = df := by
        simp [firstTravelOf, hd]
      have hnd : neighborsOf (precompute g gp gq ss).dg n = dn := by
        simp [neighborsOf, hd]
      have h1 : dp = some [] := by
        cases hdp : dp with
        | none =>
          exact absurd (hpd.trans hdp) (hinv.probs_some n hdg)
        | some l =>
          cases hl : l with
          | nil => rfl
          | cons a tl =>
            exact absurd (hinv.probs_occurs n l (hpd.trans hdp) (by rw [hl]; simp)) hnocc
      have h2 : df = none := by
        cases hdf : df with
        | none => rfl
        | some v =>
          refine absurd (hinv.done_occurs n ((hinv.done_ft n).mpr ?_)) hnocc
          rw [hfd.trans hdf]
          exact Option.some_ne_none _
      have h3 : dn = none := by
        cases hdn : dn with
        | none => rfl
        | some nl =>
          refine absurd (hinv.nbrs_occurs n ?_) hnocc
          rw [hnd.trans hdn]
          exact Option.some_ne_none _
      rw [h1, h2, h3]

theorem sampleWalkAux_length (dg : V → Option (NodeDict V)) (choose : List V → List ℚ → V) :
    ∀ (fuel : ℕ) (cur : V) (rest : List V) (w : List V),
      sampleWalkAux dg choose fuel cur rest = some w →
      w.length = rest.length + 1 + fuel ∨
      (w.length < rest.length + 1 + fuel ∧
        ∃ last, w.getLast? = some last ∧ nbrsRecorded dg last = []) := by
  intro fuel
  induction fuel with
  | zero =>
    intro cur rest w h
    simp only [sampleWalkAux] at h
    have hw : w = (cur :: rest).reverse := (Option.some_inj.mp h).symm
    subst hw
    left
    simp
  | succ f ih =>
    intro cur rest w h
    cases rest with
    | nil =>
      simp only [sampleWalkAux] at h
      by_cases hempty : nbrsRecorded dg cur = []
      · rw [if_pos hempty] at h
        have hw : w = (cur :: []).reverse := (Option.some_inj.mp h).symm
        subst hw
        right
        refine ⟨by simp, cur, ?_, hempty⟩
        rw [List.getLast?_reverse]
        rfl
      · rw [if_neg hempty] at h
        cases hft : firstTravelOf dg cur with
        | none => rw [hft] at h; cases h
        | some probs =>
          rw [hft] at h
          rcases ih _ _ _ h with h1 | ⟨h1, last, h2, h3⟩
          · left
            simp only [List.length_cons, List.length_nil] at h1 ⊢
            omega
          · right
            refine ⟨?_, last, h2, h3⟩
            simp only [List.length_cons, List.length_nil] at h1 ⊢
            omega
    | cons prev rtl =>
      simp only [sampleWalkAux] at h
      by_cases hempty : nbrsRecorded dg cur = []
      · rw [if_pos hempty] at h
        have hw : w = (cur :: prev :: rtl).reverse := (Option.some_inj.mp h).symm
        subst hw
        right
        refine ⟨by simp, cur, ?_, hempty⟩
        rw [List.getLast?_reverse]
        rfl
      · rw [if_neg hempty] at h
        cases htr : transitionOf dg cur prev with
        | none => rw [htr] at h; cases h
        | some probs =>
          rw [htr] at h
          rcases ih _ _ _ h with h1 | ⟨h1, last, h2, h3⟩
          · left
            simp only [List.length_cons] at h1 ⊢
            omega
          · right
            refine ⟨?_, last, h2, h3⟩
            simp only [List.length_cons] at h1 ⊢
            omega

/-- C7 (walk sampler modelled from the spec): every generated walk has
length equal to the effective configured walk length of its start node,
unless a dead end — a node with zero recorded neighbors — is reached
strictly before that length, in which case the walk is strictly shorter and
its last element has zero recorded neighbors. -/
theorem claim_C7 (dg : V → Option (NodeDict V)) (choose : List V → List ℚ → V)
    (ss : V → Option Overrides) (gwl : ℕ) (start : V) (w : List V)
    (h1 : 1 ≤ effWalkLength ss gwl start)
    (h2 : sampleWalk dg choose start (effWalkLength ss gwl start) = some w) :
    w.length = effWalkLength ss gwl start ∨
    (w.length < effWalkLength ss gwl start ∧
      ∃ last, w.getLast? = some last ∧ nbrsRecorded dg last = []) := by
  unfold sampleWalk at h2
  rcases sampleWalkAux_length dg choose _ _ _ _ h2 with h | ⟨hlt, last, hl, hn⟩
  · left
    simp only [List.length_nil] at h
    omega
  · right
    refine ⟨?_, last, hl, hn⟩
    simp only [List.length_nil] at hlt
    omega

theorem seqOptions_length {α : Type _} :
    ∀ (l : List (Option α)) (xs : List α), seqOptions l = some xs → xs.length = l.length := by
  intro l
  induction l with
  | nil =>
    intro xs h
    simp only [seqOptions] at h
    rw [← Option.some_inj.mp h]
    rfl
  | cons o tl ih =>
    intro xs h
    cases o with
    | none => simp only [seqOptions] at h; cases h
    | some a =>
      cases hs : seqOptions tl with
      | none => simp only [seqOptions, hs] at h; cases h
      | some l' =>
        simp only [seqOptions, hs, Option.some.injEq] at h
        rw [← h]
        simp [ih l' hs]

theorem length_flatMap_const {α β : Type _} (l : List α) (ys : List β) :
    (l.flatMap fun _ => ys).length = l.length * ys.length := by
  induction l with
  | nil => simp
  | cons a tl ih => simp [ih, Nat.succ_mul, Nat.add_comm]

theorem workerBatch_length (dg : V → Option (NodeDict V)) (ss : V → Option Overrides)
    (gwl cnt : ℕ) (nodes : List V) (choose : List V → List ℚ → V) (b : List (List V))
    (h : workerBatch dg ss gwl cnt nodes choose = some b) :
    b.length = cnt * nodes.length := by
  unfold workerBatch at h
  rw [seqOptions_length _ _ h, length_flatMap_const, List.length_range, List.length_map]

theorem gen_batches_length (dg : V → Option (NodeDict V)) (ss : V → Option Overrides)
    (gwl : ℕ) (nodes : List V) (choose : List V → List ℚ → V) :
    ∀ (sizes : List ℕ) (bs : List (List (List V))),
      seqOptions (sizes.map fun cnt => workerBatch dg ss gwl cnt nodes choose) = some bs →
      bs.flatten.length = sizes.sum * nodes.length := by
  intro sizes
  induction sizes with
  | nil =>
    intro bs h
    simp only [List.map_nil, seqOptions, Option.some.injEq] at h
    rw [← h]
    simp
  | cons cnt tl ih =>
    intro bs h
    cases hw : workerBatch dg ss gwl cnt nodes choose with
    | none => simp only [List.map_cons, hw, seqOptions] at h; cases h
    | some b =>
      cases hs : seqOptions (tl.map fun cnt => workerBatch dg ss gwl cnt nodes choose) with
      | none => simp only [List.map_cons, hw, seqOptions, hs] at h; cases h
      | some bs' =>
        simp only [List.map_cons, hw, seqOptions, hs, Option.some.injEq] at h
        rw [← h]
        simp only [List.flatten_cons, List.length_append, List.sum_cons, Nat.add_mul]
        rw [workerBatch_length dg ss gwl cnt nodes choose b hw, ih bs' hs]

theorem range_map_ite_sum (d : ℕ) :
    ∀ (k m : ℕ), ((List.range k).map fun i => if i < m then d + 1 else d).sum = k * d + min m k := by
  intro k
  induction k with
  | zero => intro m; simp
  | succ k ih =>
    intro m
    rw [List.range_succ]
    simp only [List.map_append, List.sum_append, List.map_cons, List.map_nil,
      List.sum_cons, List.sum_nil, ih m]
    by_cases h : k < m
    · rw [if_pos h]
      have hm1 : min m k = k := by omega
      have hm2 : min m (k + 1) = k + 1 := by omega
      rw [hm1, hm2, Nat.succ_mul]
      omega
    · rw [if_neg h]
      have hm1 : min m k = min m (k + 1) := by omega
      rw [hm1, Nat.succ_mul]
      omega

theorem arraySplitSizes_sum (l k : ℕ) (hk : 1 ≤ k) : (arraySplitSizes l k).sum = l := by
  unfold arraySplitSizes
  rw [range_map_ite_sum (l / k) k (l % k)]
  have h1 : l % k < k := Nat.mod_lt _ hk
  have h2 := Nat.div_add_mod l k
  omega

theorem arraySplitSizes_len (l k : ℕ) : (arraySplitSizes l k).length = k := by
  simp [arraySplitSizes]

theorem arraySplitSizes_near (l k : ℕ) :
    ∀ a ∈ arraySplitSizes l k, ∀ b ∈ arraySplitSizes l k, a ≤ b + 1 := by
  intro a ha b hb
  unfold arraySplitSizes at ha hb
  obtain ⟨i, _, hi⟩ := List.mem_map.mp ha
  obtain ⟨j, _, hj⟩ := List.mem_map.mp hb
  have hai : a = l / k + 1 ∨ a = l / k := by
    by_cases h1 : i < l % k
    · rw [if_pos h1] at hi
      exact Or.inl hi.symm
    · rw [if_neg h1] at hi
      exact Or.inr hi.symm
  have hbj : b = l / k + 1 ∨ b = l / k := by
    by_cases h2 : j < l % k
    · rw [if_pos h2] at hj
      exact Or.inl hj.symm
    · rw [if_neg h2] at hj
      exact Or.inr hj.symm
  rcases hai with h | h <;> rcases hbj with h' | h' <;> omega

/-- C3 (orchestrator from the source, per-worker body modelled from the
spec): for every worker count k ≥ 1, the walk numbers are split into k
contiguous near-equal slices (k slices, summing to num_walks, any two sizes
within 1 of each other), each worker samples one walk per node per
repetition in its slice, the per-worker lists are concatenated in
worker-index order, and the resulting flat list has exactly
num_walks × num_nodes walks — the same count as with one worker. -/
theorem claim_C3 (dg : V → Option (NodeDict V)) (ss : V → Option Overrides)
    (gwl numWalks k : ℕ) (nodes : List V) (choose : List V → List ℚ → V)
    (hk : 1 ≤ k) :
    (arraySplitSizes numWalks k).length = k ∧
    (arraySplitSizes numWalks k).sum = numWalks ∧
    (∀ a ∈ arraySplitSizes numWalks k, ∀ b ∈ arraySplitSizes numWalks k, a ≤ b + 1) ∧
    (∀ ws, generateWalks dg ss gwl numWalks k nodes choose = some ws →
      ws.length = numWalks * nodes.length) ∧
    (∀ ws1, generateWalks dg ss gwl numWalks 1 nodes choose = some ws1 →
      ws1.length = numWalks * nodes.length) := by
  have hcount : ∀ k', 1 ≤ k' → ∀ ws,
      generateWalks dg ss gwl numWalks k' nodes choose = some ws →
      ws.length = numWalks * nodes.length := by
    intro k' hk' ws h
    unfold generateWalks at h
    cases hs : seqOptions ((arraySplitSizes numWalks k').map fun cnt =>
        workerBatch dg ss gwl cnt nodes choose) with
    | none => rw [hs] at h; cases h
    | some bs =>
      rw [hs] at h
      simp only [Option.map_some'] at h
      rw [← Option.some_inj.mp h]
      rw [gen_batches_length dg ss gwl nodes choose _ _ hs,
        arraySplitSizes_sum numWalks k' hk']
  exact ⟨arraySplitSizes_len numWalks k, arraySplitSizes_sum numWalks k hk,
    arraySplitSizes_near numWalks k, hcount k hk, hcount 1 (le_refl 1)⟩

theorem alookup_append {K β : Type} [DecidableEq K] (k : K) (l1 l2 : List (K × β)) :
    alookup k (l1 ++ l2) = match alookup k l1 with
      | some v => some v
      | none => alookup k l2 := by
  induction l1 with
  | nil => simp [alookup]
  | cons hd tl ih =>
    obtain ⟨k', v'⟩ := hd
    by_cases h : k' = k <;> simp [alookup, h, ih]

/-- C4 as amended: the dimensionality forwarded to the trainer equals the
constructor's `dimensions` whenever the caller does not supply the `size`
option itself; a caller-supplied `size` is forwarded unchanged (the code
only fills in a missing key, it does not enforce the configured value — see
the counterexample). -/
theorem claim_C4 (dims workers : ℕ) (ps : List (String × ℕ))
    (h : alookup "size" ps = none) :
    alookup "size" (fitParams dims workers ps) = some dims := by
  have hws : ("workers" : String) ≠ "size" := by decide
  have hd : ∀ l : List (String × ℕ), alookup "size" l = none →
      alookup "size" (l ++ [("size", dims)]) = some dims := by
    intro l hl
    rw [alookup_append, hl]
    simp [alookup]
  unfold fitParams
  by_cases hw : (alookup "workers" ps).isNone
  · rw [if_pos hw]
    have h1 : alookup "size" (ps ++ [("workers", workers)]) = none := by
      rw [alookup_append, h]
      simp [alookup, hws]
    rw [if_pos (by rw [h1]; rfl)]
    exact hd _ h1
  · rw [if_neg hw]
    rw [if_pos (by rw [h]; rfl)]
    exact hd _ h

/-- C4 counterexample: a caller-supplied `size` of 5 reaches the trainer
unchanged even though the configured dimensionality is 128 — the configured
dimensionality does not always win, and the caller CAN re-specify it. -/
theorem claim_C4_counterexample :
    alookup "size" (fitParams 128 1 [("size", 5)]) = some 5 ∧ (5 : ℕ) ≠ 128 := by
  constructor
  · decide
  · decide

/-- C8 at the failing input: on the single-edge graph whose edge weight is
0, the precomputer reaches a zero-sum weight vector and divides anyway — it
stores the elementwise quotient (the all-zero vector in exact arithmetic,
NaN in floating point) both as the transition vector and as the first-travel
vector, raising no error and special-casing nothing: the stored vector is
non-empty and is not a probability distribution. -/
theorem claim_C8 :
    transitionOf (precompute gZero 1 1 (fun _ => none)).dg 0 1 = some [0] ∧
    firstTravelOf (precompute gZero 1 1 (fun _ => none)).dg 0 = some [0] ∧
    ([0] : List ℚ) ≠ [] ∧
    ¬ (([0] : List ℚ).sum = 1) := by
  refine ⟨?_, ?_, by simp, by norm_num⟩
  · norm_num [precompute, processSource, processPair, initProbs, initState, transitionOf,
      probsOf, getNode, alookup, dictInsert, transWeights, biasWeight, normalize,
      rawWeights, effP, effQ, gZero]
  · norm_num [precompute, processSource, processPair, initProbs, initState, firstTravelOf,
      probsOf, getNode, alookup, dictInsert, transWeights, biasWeight, normalize,
      rawWeights, effP, effQ, gZero]

/-- C9 as amended: construction with a NON-EMPTY temporary-storage path that
is not an existing directory fails immediately with the directory-not-found
error, and the error result carries no precomputed state (nothing ran);
construction with no path, with an existing directory, or with the empty
string (which Python's truthiness test treats as "no path" — see the
counterexample) does not raise this error. -/
theorem claim_C9 (isDir : String → Bool) (g : Graph V) (gp gq : ℚ)
    (ss : V → Option Overrides) :
    (∀ s : String, s ≠ "" → isDir s = false →
      node2vecInit isDir (some s) g gp gq ss =
        .error ("temp_folder does not exist or is not a directory. (" ++ s ++ ")")) ∧
    (node2vecInit isDir none g gp gq ss = .ok ((none, none), precompute g gp gq ss)) ∧
    (∀ s : String, isDir s = true →
      ∃ r, node2vecInit isDir (some s) g gp gq ss = .ok r) ∧
    (node2vecInit isDir (some "") g gp gq ss =
      .ok ((none, none), precompute g gp gq ss)) := by
  refine ⟨fun s hs hdir => ?_, rfl, fun s hdir => ?_, by simp [node2vecInit]⟩
  · simp [node2vecInit, hs, hdir]
  · by_cases hs : s = ""
    · subst hs
      exact ⟨((none, none), precompute g gp gq ss), by simp [node2vecInit]⟩
    · exact ⟨((some s, some "sharedmem"), precompute g gp gq ss),
        by simp [node2vecInit, hs, hdir]⟩

/-- C9 counterexample: the empty string is a temporary-storage path that is
not an existing directory (the oracle returns false on every path), yet
construction succeeds — Python's `if temp_folder:` is false for the empty
string, so the validation is skipped. -/
theorem claim_C9_counterexample :
    (fun _ : String => false) "" = false ∧
    node2vecInit (fun _ => false) (some "") gE 1 1 (fun _ => none) =
      .ok ((none, none), precompute gE 1 1 (fun _ => none)) :=
  ⟨rfl, by simp [node2vecInit]⟩

theorem claim_C1_witness :
    (0 ∈ gT.nodes) ∧ (1 ∈ gT.nbrs 0) ∧
    transitionOf (precompute gT 1 1 (fun _ => none)).dg 1 0 =
      some (normalize ((gT.nbrs 1).map
        (biasWeight gT (effP (fun _ => none) 1 1) (effQ (fun _ => none) 1 1) 0 1))) :=
  ⟨by decide, by decide, claim_C1 gT 1 1 (fun _ => none) 0 1 (by decide) (by decide)⟩

theorem claim_C2_witness :
    gT.nbrs 1 ≠ [] ∧
    ((∀ s v, transitionOf (precompute gT 1 1 (fun _ => none)).dg 1 s = some v →
      (∀ x ∈ v, 0 ≤ x) ∧ v.sum = 1) ∧
     (∀ v, firstTravelOf (precompute gT 1 1 (fun _ => none)).dg 1 = some v →
      (∀ x ∈ v, 0 ≤ x) ∧ v.sum = 1)) :=
  ⟨by decide, claim_C2 gT 1 1 (fun _ => none)
    (fun a b _ => by norm_num [gT]) (fun m => by norm_num [effP])
    (fun m => by norm_num [effQ]) 1 (by decide)⟩

theorem claim_C3_witness :
    (1 ≤ 2) ∧
    ((arraySplitSizes 3 2).length = 2 ∧
     (arraySplitSizes 3 2).sum = 3 ∧
     (∀ a ∈ arraySplitSizes 3 2, ∀ b ∈ arraySplitSizes 3 2, a ≤ b + 1) ∧
     (∀ ws, generateWalks dgPath (fun _ => none) 3 3 2 [0, 1] chooseHead = some ws →
       ws.length = 3 * ([0, 1] : List ℕ).length) ∧
     (∀ ws1, generateWalks dgPath (fun _ => none) 3 3 1 [0, 1] chooseHead = some ws1 →
       ws1.length = 3 * ([0, 1] : List ℕ).length)) :=
  ⟨by decide, claim_C3 dgPath (fun _ => none) 3 3 2 [0, 1] chooseHead (by decide)⟩

theorem claim_C4_witness :
    alookup "size" ([] : List (String × ℕ)) = none ∧
    alookup "size" (fitParams 128 4 []) = some 128 :=
  ⟨rfl, claim_C4 128 4 [] rfl⟩

theorem claim_C5_witness :
    occursAsNbr gT 1 ∧
    ((precompute gT 1 1 (fun _ => none)).ftWrites 1 = 1 ∧
     firstTravelOf (precompute gT 1 1 (fun _ => none)).dg 1 =
       some (normalize ((gT.nbrs 1).map (fun d => gT.w 1 d)))) :=
  ⟨⟨0, by decide, by decide⟩,
   claim_C5 gT 1 1 (fun _ => none) 1 ⟨0, by decide, by decide⟩⟩

theorem claim_C6_witness :
    neighborsOf (precompute gT 1 1 (fun _ => none)).dg 1 = some [0, 2] ∧
    ((∀ s v, transitionOf (precompute gT 1 1 (fun _ => none)).dg 1 s = some v →
      v.length = ([0, 2] : List ℕ).length ∧ ∃ f : ℕ → ℚ, v = ([0, 2] : List ℕ).map f) ∧
     (∀ v, firstTravelOf (precompute gT 1 1 (fun _ => none)).dg 1 = some v →
      v.length = ([0, 2] : List ℕ).length ∧ ∃ f : ℕ → ℚ, v = ([0, 2] : List ℕ).map f)) :=
  ⟨by decide, claim_C6 gT 1 1 (fun _ => none) 1 [0, 2] (by decide)⟩

theorem claim_C7_witness :
    1 ≤ effWalkLength (fun _ : ℕ => none) 3 0 ∧
    sampleWalk dgPath chooseHead 0 (effWalkLength (fun _ => none) 3 0) = some [0, 1, 0] ∧
    (([0, 1, 0] : List ℕ).length = effWalkLength (fun _ : ℕ => none) 3 0 ∨
      (([0, 1, 0] : List ℕ).length < effWalkLength (fun _ : ℕ => none) 3 0 ∧
        ∃ last, ([0, 1, 0] : List ℕ).getLast? = some last ∧ nbrsRecorded dgPath last = [])) :=
  ⟨by decide, by decide,
   claim_C7 dgPath chooseHead (fun _ => none) 3 0 [0, 1, 0] (by decide) (by decide)⟩

end N2V
